import Mathlib

/-!
# myshell.c : a shallow embedding

The shell of `Exercise 1/myshell.c` is embedded as pure functions over an explicit
process state.  A C string is the list of its characters before the terminating
NUL, every `char` being one list element.  The operating system is an oracle
(`Sys`) that fixes what each system call answers during one loop iteration, and
every observable action of the process is appended to a trace of `Event`s.
`strdup` is taken to succeed.
-/

namespace MyShell

/-- A C string: the characters before the terminating NUL. -/
abbrev CString := List Char

def MAX_COMMANDS : Nat := 100

def MAX_COMMAND_LENGTH : Nat := 100

/-- Observable actions of the process, in the order they are performed. -/
inductive Event where
  /-- bytes written to standard output by one `printf` call -/
  | out (s : CString)
  /-- a diagnostic written to standard error (`fprintf(stderr, ..)` or the prefix given to `perror`) -/
  | err (s : CString)
  | chdir (path : CString)
  | getcwd
  | fork
  | execv (path : CString) (argv : List CString)
  | execvp (file : CString) (argv : List CString)
  | waitpid (pid : Int)
  deriving DecidableEq, Repr

/-- What the operating system answers to the system calls of one loop iteration. -/
structure Sys where
  /-- value returned by `fork()` in the process that is followed -/
  fork : Int
  /-- whether the `execv` call of loop index `i` on the given path replaces the image -/
  execv : Nat → CString → Bool
  /-- whether the `execvp` call replaces the image -/
  execvp : Bool
  /-- value returned by `waitpid` -/
  waitpid : Int
  /-- value returned by `chdir(path)` -/
  chdir : CString → Int
  /-- the directory written by `getcwd`, or `none` when it returns NULL -/
  getcwd : Option CString

/-- The process state: the two globals, the unread part of standard input and
the trace of actions performed so far. -/
structure Shell where
  /-- the global array `char *history[MAX_COMMANDS]`; `none` is a NULL slot -/
  history : List (Option CString)
  history_count : Nat
  stdin : List Char
  trace : List Event
  deriving DecidableEq, Repr

/-- How a piece of code ends: it returns to its caller (for the loop: it goes on
with the next iteration), the process exits with a status, or the process image
is replaced by a successful exec (the last event of the trace says by what). -/
inductive Result where
  | returned (st : Shell)
  | exited (status : Nat) (st : Shell)
  | replaced (st : Shell)
  deriving DecidableEq, Repr

def Result.state : Result → Shell
  | .returned st => st
  | .exited _ st => st
  | .replaced st => st

/-- The state at program start: zero-initialised globals, nothing done yet. -/
def Shell.init (stdin : List Char) : Shell :=
  { history := List.replicate MAX_COMMANDS none, history_count := 0, stdin := stdin, trace := [] }

def Shell.emit (st : Shell) (e : Event) : Shell :=
  { st with trace := st.trace ++ [e] }

/-! ## C library functions -/

/-- `strspn(s, accept)`: length of the initial segment made of bytes in `accept`. -/
def strspn (s accept : CString) : Nat :=
  (s.takeWhile (fun c => decide (c ∈ accept))).length

/-- `strcspn(s, reject)`: length of the initial segment free of bytes in `reject`. -/
def strcspn (s reject : CString) : Nat :=
  (s.takeWhile (fun c => !decide (c ∈ reject))).length

/-- One `strtok` call on the text the saved pointer designates: skip the leading
delimiters; at the end of the string answer NULL; otherwise the token runs up to
the next delimiter, which is overwritten with NUL, and the saved pointer moves
past it (or stays at the end of the string). -/
def strtok (s delim : CString) : Option CString × CString :=
  let s := s.drop (strspn s delim)
  if s = [] then (none, s)
  else
    let n := strcspn s delim
    (some (s.take n), s.drop (n + 1))

/-- `strcmp`, up to the sign of its result. -/
def strcmp : CString → CString → Int
  | [], [] => 0
  | [], _ :: _ => -1
  | _ :: _, [] => 1
  | a :: as, b :: bs => if a = b then strcmp as bs else if a < b then -1 else 1

/-- The `%d` conversion of a non-negative value. -/
def printf_d (n : Nat) : CString := Nat.toDigits 10 n

/-- The `%s` conversion; glibc prints `(null)` for a NULL pointer. -/
def printf_s : Option CString → CString
  | some s => s
  | none => "(null)".toList

/-- `snprintf(buf, size, "%s/%s", dir, name)`: at most `size - 1` bytes are stored. -/
def snprintf_path (size : Nat) (dir name : CString) : CString :=
  (dir ++ '/' :: name).take (size - 1)

/-- The bytes `fgets` stores when it may store at most `n`: up to and including
the first newline; also the input left unread. -/
def fgets_read : Nat → List Char → CString × List Char
  | 0, s => ([], s)
  | _, [] => ([], [])
  | n + 1, c :: s =>
    if c = '\n' then ([c], s)
    else ((c :: (fgets_read n s).1), (fgets_read n s).2)

/-- `fgets(buf, size, stdin)`: NULL at end of input, else the buffer and the rest. -/
def fgets (size : Nat) (stdin : List Char) : Option (CString × List Char) :=
  if stdin = [] then none else some (fgets_read (size - 1) stdin)

/-- The C locale's `isspace`. -/
def isspace (c : Char) : Bool :=
  c = ' ' || c = '\t' || c = '\n' || c = '\x0b' || c = '\x0c' || c = '\r'

/-! ## The history -/

def add_to_history (st : Shell) (command : CString) : Shell :=
  if st.history_count < MAX_COMMANDS then
    { st with
      history := st.history.set st.history_count (some command)
      history_count := st.history_count + 1 }
  else st

/-- The text one iteration of the loop of `print_history` prints. -/
def history_line (st : Shell) (i : Nat) : CString :=
  printf_d (i + 1) ++ ' ' :: printf_s (st.history.getD i none) ++ ['\n']

def print_history (st : Shell) : Shell :=
  { st with
    trace := st.trace ++ (List.range st.history_count).map (fun i => Event.out (history_line st i)) }

/-! ## The other built-ins -/

def change_directory (sys : Sys) (st : Shell) (path : Option CString) : Shell :=
  match path with
  | none => st.emit (.err "cd: missing argument\n".toList)
  | some p =>
    let st := st.emit (.chdir p)
    if sys.chdir p ≠ 0 then st.emit (.err "chdir failed".toList) else st

def print_working_directory (sys : Sys) (st : Shell) : Shell :=
  let st := st.emit .getcwd
  match sys.getcwd with
  | some cwd => st.emit (.out (cwd ++ ['\n']))
  | none => st.emit (.err "getcwd failed".toList)

/-! ## External commands -/

/-- The `for` loop of the child branch, from index `i` over the directories not
yet tried.  `returned` means that the loop ran to its end, every `execv` having
failed. -/
def exec_loop (sys : Sys) (args : List CString) : Nat → List CString → Shell → Result
  | _, [], st => .returned st
  | i, d :: ds, st =>
    let command_path := snprintf_path 1024 d (args.headD [])
    let st := st.emit (.execv command_path args)
    if sys.execv i command_path then .replaced st
    else exec_loop sys args (i + 1) ds st

/-- The branch `pid == 0` of `execute_command`. -/
def execute_child (sys : Sys) (st : Shell) (args paths : List CString) : Result :=
  match exec_loop sys args 0 paths st with
  | .returned st =>
    let st := st.emit (.execvp (args.headD []) args)
    if sys.execvp then .replaced st
    else .exited 1 (st.emit (.err "exec failed".toList))
  | r => r

def execute_command (sys : Sys) (st : Shell) (args paths : List CString) : Result :=
  let st := st.emit .fork
  let pid := sys.fork
  if pid = 0 then execute_child sys st args paths
  else if pid > 0 then
    let st := st.emit (.waitpid pid)
    if sys.waitpid = -1 then .exited 1 (st.emit (.err "waitpid failed".toList))
    else .returned st
  else .exited 1 (st.emit (.err "fork failed".toList))

/-! ## main -/

/-- The `while (token != NULL)` loop: `args` holds the slots written so far, so
the index `i` of the source is `args.length`. -/
def parse_loop : Nat → Option CString → CString → List CString → List CString
  | 0, _, _, args => args
  | _, none, _, args => args
  | fuel + 1, some token, save, args =>
    parse_loop fuel (strtok save [' ']).1 (strtok save [' ']).2 (args ++ [token])

/-- The tokens stored in `args` before the closing NULL. -/
def parse_args (command : CString) : List CString :=
  parse_loop (command.length + 1) (strtok command [' ']).1 (strtok command [' ']).2 []

/-- The `if` chain on `args[0]`. -/
def dispatch (sys : Sys) (paths : List CString) (st : Shell) (args : List CString) : Result :=
  match args with
  | [] => .returned st
  | arg0 :: rest =>
    if strcmp arg0 "history".toList = 0 then .returned (print_history st)
    else if strcmp arg0 "cd".toList = 0 then .returned (change_directory sys st rest.head?)
    else if strcmp arg0 "pwd".toList = 0 then .returned (print_working_directory sys st)
    else if strcmp arg0 "exit".toList = 0 then .exited 0 st
    else execute_command sys st args paths

/-- The buffer up to its first newline: `command[strcspn(command, "\n")] = 0`. -/
def strip_newline (command : CString) : CString :=
  command.take (strcspn command ['\n'])

/-- The loop body from the newline removal on, `command` being what `fgets` stored. -/
def process_line (sys : Sys) (paths : List CString) (st : Shell) (command : CString) : Result :=
  let command := strip_newline command
  let st := add_to_history st command
  dispatch sys paths st (parse_args command)

/-- One iteration of `while (1)`. -/
def loop_body (sys : Sys) (paths : List CString) (st : Shell) : Result :=
  let st := st.emit (.out "$ ".toList)
  match fgets MAX_COMMAND_LENGTH st.stdin with
  | none => .exited 1 (st.emit (.err "fgets failed".toList))
  | some (command, rest) => process_line sys paths { st with stdin := rest } command

/-- The main loop, run for one iteration per element of `world` unless the
process ends before; `returned` is the state at the top of the loop, the next
iteration not yet started. -/
def main_loop (paths : List CString) : List Sys → Shell → Result
  | [], st => .returned st
  | sys :: world, st =>
    match loop_body sys paths st with
    | .returned st => main_loop paths world st
    | r => r

def main (argv : List CString) (stdin : List Char) (world : List Sys) : Result :=
  main_loop (argv.drop 1) world (Shell.init stdin)

/-! ## Reference definitions and sample environments -/

/-- The line split at each space, the empty pieces removed. -/
def split_on_space (line : CString) : List CString :=
  (line.splitOn ' ').filter (fun p => decide (p ≠ []))

/-- Rendering of the first entries of a history: entry `k` as `<k> <line>`. -/
def render_history (lines : List CString) : List Event :=
  lines.enum.map (fun p => Event.out (printf_d (p.1 + 1) ++ ' ' :: p.2 ++ ['\n']))

/-- An environment in which the followed process is the parent and the wait succeeds. -/
def sys_parent : Sys :=
  { fork := 4242, execv := fun _ _ => false, execvp := false, waitpid := 4242,
    chdir := fun _ => 0, getcwd := some "/".toList }

/-- The `execv` call made for directory `d`. -/
def execv_event (args : List CString) (d : CString) : Event :=
  .execv (snprintf_path 1024 d (args.headD [])) args

/-- An environment in which the followed process is the child and no exec succeeds. -/
def sys_child_no_exec : Sys :=
  { fork := 0, execv := fun _ _ => false, execvp := false, waitpid := 0,
    chdir := fun _ => 0, getcwd := some "/".toList }

/-- An environment in which the followed process is the child and only the
`execv` call of loop index 1 succeeds. -/
def sys_child_second : Sys :=
  { fork := 0, execv := fun i _ => decide (i = 1), execvp := false, waitpid := 0,
    chdir := fun _ => 0, getcwd := some "/".toList }

/-- An environment in which `fork` fails. -/
def sys_fork_fails : Sys :=
  { fork := -1, execv := fun _ _ => false, execvp := false, waitpid := 0,
    chdir := fun _ => 0, getcwd := some "/".toList }

/-- A directory name of 1024 characters, `/a/a/../a`. -/
def long_dir : CString := (List.replicate 512 ['/', 'a']).flatten

/-- The state after the line `ls` has been recorded 100 times. -/
def full_history : Shell :=
  (List.replicate 100 "ls".toList).foldl add_to_history (Shell.init [])

/-- The names of the built-in commands. -/
def builtins : List CString :=
  ["history".toList, "cd".toList, "pwd".toList, "exit".toList]

/-- The state in which the `if` chain of `main` is entered: the prompt is
printed, `rest` is the input left unread and `line` has gone through
`add_to_history`. -/
def recorded (st : Shell) (rest : List Char) (line : CString) : Shell :=
  add_to_history { st.emit (.out "$ ".toList) with stdin := rest } line

/-- The history holds exactly the lines `held`, in its first slots. -/
def Holds (st : Shell) (held : List CString) : Prop :=
  st.history = held.map some ++ List.replicate (MAX_COMMANDS - held.length) none ∧
  st.history_count = held.length ∧ held.length ≤ MAX_COMMANDS

/-! ## The tokenizer -/

theorem drop_length_takeWhile (p : Char → Bool) (l : List Char) :
    l.drop (l.takeWhile p).length = l.dropWhile p := by
  induction l with
  | nil => rfl
  | cons a l ih =>
    by_cases h : p a = true
    · simp [List.takeWhile_cons, List.dropWhile_cons, h, ih]
    · simp [List.takeWhile_cons, List.dropWhile_cons, h]

theorem take_length_takeWhile (p : Char → Bool) (l : List Char) :
    l.take (l.takeWhile p).length = l.takeWhile p := by
  induction l with
  | nil => rfl
  | cons a l ih =>
    by_cases h : p a = true
    · simp [List.takeWhile_cons, h, ih]
    · simp [List.takeWhile_cons, h]

/-- The head of what `dropWhile` leaves fails the test. -/
theorem dropWhile_head_not (p : Char → Bool) (l : List Char) (x : Char) (r : List Char)
    (h : l.dropWhile p = x :: r) : p x = false := by
  induction l with
  | nil => simp at h
  | cons a l ih =>
    by_cases ha : p a = true
    · rw [List.dropWhile_cons_of_pos ha] at h
      exact ih h
    · rw [List.dropWhile_cons_of_neg ha] at h
      injection h with h1 _
      subst h1
      simpa using ha

theorem length_dropWhile_le (p : Char → Bool) (l : List Char) :
    (l.dropWhile p).length ≤ l.length := by
  have h := congrArg List.length (List.takeWhile_append_dropWhile p l)
  rw [List.length_append] at h
  omega

/-- One `strtok` call with the space as only delimiter, in terms of `dropWhile`
and `takeWhile`. -/
theorem strtok_space (s : CString) :
    strtok s [' '] =
      if s.dropWhile (fun c => decide (c = ' ')) = [] then
        (none, s.dropWhile (fun c => decide (c = ' ')))
      else
        (some ((s.dropWhile (fun c => decide (c = ' '))).takeWhile (fun c => !decide (c = ' '))),
          ((s.dropWhile (fun c => decide (c = ' '))).dropWhile
            (fun c => !decide (c = ' '))).drop 1) := by
  have e1 : (fun c : Char => decide (c ∈ [' '])) = (fun c => decide (c = ' ')) := by
    funext c; simp
  have e2 : (fun c : Char => !decide (c ∈ [' '])) = (fun c => !decide (c = ' ')) := by
    funext c; simp
  unfold strtok strspn strcspn
  simp only [e1, e2, drop_length_takeWhile, take_length_takeWhile]
  split
  · rfl
  · rw [← List.drop_drop, drop_length_takeWhile]

theorem parse_loop_acc (fuel : Nat) (t : Option CString) (save : CString) (args : List CString) :
    parse_loop fuel t save args = args ++ parse_loop fuel t save [] := by
  induction fuel generalizing t save args with
  | zero => simp [parse_loop]
  | succ n ih =>
    cases t with
    | none => simp [parse_loop]
    | some tok =>
      simp only [parse_loop]
      rw [ih, ih _ _ ([] ++ [tok])]
      simp

theorem split_on_space_nil : split_on_space [] = [] := by
  simp [split_on_space, List.splitOn, List.splitOnP_nil]

theorem split_on_space_cons_space (s : CString) :
    split_on_space (' ' :: s) = split_on_space s := by
  simp [split_on_space, List.splitOn, List.splitOnP_cons]

/-- The pieces of a split: the run before the first separator, then the pieces
of what follows that separator. -/
theorem splitOnP_unfold (p : Char → Bool) (s : List Char) :
    s.splitOnP p = s.takeWhile (fun c => !p c) ::
      (match s.dropWhile (fun c => !p c) with
       | [] => []
       | _ :: r => r.splitOnP p) := by
  induction s with
  | nil => simp [List.splitOnP_nil]
  | cons a s ih =>
    rw [List.splitOnP_cons]
    by_cases h : p a = true
    · simp [h, List.takeWhile_cons, List.dropWhile_cons]
    · simp only [h]
      rw [ih]
      simp [h, List.takeWhile_cons, List.dropWhile_cons, List.modifyHead]

theorem split_on_space_cons_char (c : Char) (s : CString) (hc : c ≠ ' ') :
    split_on_space (c :: s) =
      (c :: s.takeWhile (fun c => !decide (c = ' '))) ::
        split_on_space ((s.dropWhile (fun c => !decide (c = ' '))).drop 1) := by
  unfold split_on_space List.splitOn
  rw [splitOnP_unfold]
  have e : (fun c : Char => !(c == ' ')) = (fun c => !decide (c = ' ')) := rfl
  simp only [e]
  rw [List.takeWhile_cons_of_pos (by simpa using hc), List.dropWhile_cons_of_pos (by simpa using hc)]
  cases h : s.dropWhile (fun c => !decide (c = ' ')) with
  | nil => simp [List.splitOnP_nil]
  | cons x r => simp

theorem split_on_space_dropWhile (s : CString) :
    split_on_space (s.dropWhile (fun c => decide (c = ' '))) = split_on_space s := by
  induction s with
  | nil => rfl
  | cons a s ih =>
    by_cases h : a = ' '
    · subst h
      rw [List.dropWhile_cons_of_pos (by simp), ih, split_on_space_cons_space]
    · rw [List.dropWhile_cons_of_neg (by simpa using h)]

/-- With more fuel than characters the loop stops on a NULL token, and what it
has stored is the split of the text. -/
theorem parse_loop_eq_split (fuel : Nat) (s : CString) (h : s.length < fuel) :
    parse_loop fuel (strtok s [' ']).1 (strtok s [' ']).2 [] = split_on_space s := by
  induction fuel generalizing s with
  | zero => omega
  | succ n ih =>
    rw [strtok_space, ← split_on_space_dropWhile s]
    have hlen := length_dropWhile_le (fun c => decide (c = ' ')) s
    generalize hs1 : s.dropWhile (fun c => decide (c = ' ')) = s1 at hlen
    cases s1 with
    | nil => simp [parse_loop, split_on_space_nil]
    | cons c r =>
      have hc : c ≠ ' ' := by
        have := dropWhile_head_not _ _ _ _ hs1
        simpa using this
      have hr : ((r.dropWhile (fun c => !decide (c = ' '))).drop 1).length < n := by
        have := length_dropWhile_le (fun c => !decide (c = ' ')) r
        simp only [List.length_drop, List.length_cons] at *
        omega
      rw [if_neg (List.cons_ne_nil c r), List.takeWhile_cons_of_pos (by simpa using hc),
        List.dropWhile_cons_of_pos (by simpa using hc)]
      simp only [parse_loop]
      rw [parse_loop_acc, ih _ hr, split_on_space_cons_char c r hc]
      rfl

theorem parse_args_eq_split (s : CString) : parse_args s = split_on_space s :=
  parse_loop_eq_split (s.length + 1) s (Nat.lt_succ_self _)

/-- Induction along the tokens of a line: a leading space is skipped, a leading
other character opens a token that runs to the next space. -/
theorem parse_args_induction (P : CString → List CString → Prop)
    (hnil : P [] [])
    (hspace : ∀ s, P s (parse_args s) → P (' ' :: s) (parse_args s))
    (htok : ∀ c s, c ≠ ' ' →
      P ((s.dropWhile (fun c => !decide (c = ' '))).drop 1)
        (parse_args ((s.dropWhile (fun c => !decide (c = ' '))).drop 1)) →
      P (c :: s) ((c :: s.takeWhile (fun c => !decide (c = ' '))) ::
        parse_args ((s.dropWhile (fun c => !decide (c = ' '))).drop 1))) :
    ∀ s, P s (parse_args s) := by
  suffices h : ∀ n s, s.length = n → P s (parse_args s) from fun s => h _ s rfl
  intro n
  induction n using Nat.strong_induction_on with
  | _ n ih =>
    intro s hn
    cases s with
    | nil =>
      rw [parse_args_eq_split, split_on_space_nil]
      exact hnil
    | cons c r =>
      by_cases hc : c = ' '
      · subst hc
        have := hspace r (ih r.length (by simp at hn; omega) r rfl)
        rwa [parse_args_eq_split, split_on_space_cons_space, ← parse_args_eq_split]
      · have hr : ((r.dropWhile (fun c => !decide (c = ' '))).drop 1).length < n := by
          have := length_dropWhile_le (fun c => !decide (c = ' ')) r
          simp only [List.length_drop, List.length_cons] at *
          omega
        have := htok c r hc (ih _ hr _ rfl)
        rwa [parse_args_eq_split (c :: r), split_on_space_cons_char c r hc, ← parse_args_eq_split]

theorem parse_args_nonempty_nospace (s : CString) :
    ∀ t ∈ parse_args s, t ≠ [] ∧ ' ' ∉ t := by
  refine parse_args_induction (fun _ ts => ∀ t ∈ ts, t ≠ [] ∧ ' ' ∉ t) ?_ ?_ ?_ s
  · simp
  · intro s ih
    exact ih
  · intro c s hc ih t ht
    rcases List.mem_cons.1 ht with rfl | ht
    · refine ⟨List.cons_ne_nil _ _, ?_⟩
      intro hmem
      rcases List.mem_cons.1 hmem with h | h
      · exact hc h.symm
      · have := List.mem_takeWhile_imp h
        simp at this
    · exact ih t ht

theorem parse_args_infix (s : CString) : ∀ t ∈ parse_args s, t <:+: s := by
  refine parse_args_induction (fun s ts => ∀ t ∈ ts, t <:+: s) ?_ ?_ ?_ s
  · simp
  · intro s ih t ht
    exact (ih t ht).trans (List.suffix_cons _ _).isInfix
  · intro c s hc ih t ht
    rcases List.mem_cons.1 ht with rfl | ht
    · exact (List.prefix_cons_inj c |>.2 (List.takeWhile_prefix _)).isInfix
    · have h1 := ih t ht
      have h2 : (s.dropWhile (fun c => !decide (c = ' '))).drop 1 <:+ c :: s :=
        ((List.drop_suffix _ _).trans (List.dropWhile_suffix _)).trans (List.suffix_cons _ _)
      exact h1.trans h2.isInfix

theorem filter_takeWhile_dropWhile (s : CString) :
    s.filter (fun c => !decide (c = ' ')) =
      s.takeWhile (fun c => !decide (c = ' ')) ++
        ((s.dropWhile (fun c => !decide (c = ' '))).drop 1).filter (fun c => !decide (c = ' ')) := by
  induction s with
  | nil => rfl
  | cons a s ih =>
    by_cases h : a = ' '
    · subst h
      simp
    · rw [List.takeWhile_cons_of_pos (by simpa using h), List.dropWhile_cons_of_pos (by simpa using h),
        List.filter_cons_of_pos (by simpa using h), ih]
      rfl

theorem parse_args_flatten (s : CString) :
    (parse_args s).flatten = s.filter (fun c => !decide (c = ' ')) := by
  refine parse_args_induction (fun s ts => ts.flatten = s.filter (fun c => !decide (c = ' '))) ?_ ?_ ?_ s
  · rfl
  · intro s ih
    simpa using ih
  · intro c s hc ih
    rw [List.flatten_cons, ih, List.filter_cons_of_pos (by simpa using hc),
      filter_takeWhile_dropWhile s]
    rfl

theorem parse_args_length (s : CString) : 2 * (parse_args s).length ≤ s.length + 1 := by
  refine parse_args_induction (fun s ts => 2 * ts.length ≤ s.length + 1) ?_ ?_ ?_ s
  · simp
  · intro s ih
    simp only [List.length_cons]
    omega
  · intro c s hc ih
    have := length_dropWhile_le (fun c => !decide (c = ' ')) s
    simp only [List.length_cons, List.length_drop] at *
    omega

theorem splitOn_space_no_space (s : CString) : ∀ p ∈ s.splitOn ' ', ' ' ∉ p := by
  suffices h : ∀ n (s : CString), s.length = n → ∀ p ∈ s.splitOn ' ', ' ' ∉ p from h _ s rfl
  intro n
  induction n using Nat.strong_induction_on with
  | _ n ih =>
    intro s hn p hp
    unfold List.splitOn at hp
    rw [splitOnP_unfold] at hp
    rcases List.mem_cons.1 hp with rfl | hp
    · intro hmem
      have := List.mem_takeWhile_imp hmem
      simp at this
    · have hlen := length_dropWhile_le (fun c => !(c == ' ')) s
      cases hd : s.dropWhile (fun c => !(c == ' ')) with
      | nil => simp [hd] at hp
      | cons x r =>
        rw [hd] at hp hlen
        simp only [List.length_cons] at hlen
        exact ih r.length (by omega) r rfl p hp

theorem fgets_read_length (n : Nat) (s : List Char) : (fgets_read n s).1.length ≤ n := by
  induction n generalizing s with
  | zero => simp [fgets_read]
  | succ n ih =>
    cases s with
    | nil => simp [fgets_read]
    | cons c s =>
      simp only [fgets_read]
      split
      · simp
      · simp only [List.length_cons]
        have := ih s
        omega

theorem strip_newline_length (command : CString) :
    (strip_newline command).length ≤ command.length := by
  simp [strip_newline, List.length_take]

/-! ## Claims on the tokenizer -/

/-- C3 (as stated, refuted): a token may contain a whitespace character, since
only the space delimits; the line `a<TAB>b` is stored as the single token
`a<TAB>b`. -/
theorem C3_tab_inside_token :
    parse_args ['a', '\t', 'b'] = [['a', '\t', 'b']] ∧ isspace '\t' = true ∧
      ¬ (∀ t ∈ parse_args ['a', '\t', 'b'], ∀ c ∈ t, isspace c = false) := by
  decide

/-- C3 (amended): for every line the tokens are non-empty, free of the space
character and contiguous substrings of the line, and they are, in order, the
non-empty ones among the pieces that the line consists of when it is read as
space-free pieces joined by single spaces; so leading, trailing and repeated
spaces give no empty token. -/
theorem C3_tokens_split_on_spaces (line : CString) :
    (∀ t ∈ parse_args line, t ≠ [] ∧ ' ' ∉ t ∧ t <:+: line) ∧
    (∃ pieces : List CString,
      [' '].intercalate pieces = line ∧ (∀ p ∈ pieces, ' ' ∉ p) ∧
      parse_args line = pieces.filter (fun p => decide (p ≠ []))) := by
  constructor
  · intro t ht
    exact ⟨(parse_args_nonempty_nospace line t ht).1, (parse_args_nonempty_nospace line t ht).2,
      parse_args_infix line t ht⟩
  · exact ⟨line.splitOn ' ', List.intercalate_splitOn line ' ', splitOn_space_no_space line,
      parse_args_eq_split line⟩

/-- C10: for every line the tokens are the line split at each space with the
empty pieces removed; no token holds a space, every other character of the
line (a tab included) lies inside a token, and the tokens concatenated are the
line with its spaces deleted. -/
theorem C10_tokens_are_space_split (line : CString) :
    parse_args line = split_on_space line ∧
    (∀ t ∈ parse_args line, ' ' ∉ t) ∧
    (∀ c ∈ line, c ≠ ' ' → ∃ t ∈ parse_args line, c ∈ t) ∧
    (parse_args line).flatten = line.filter (fun c => decide (c ≠ ' ')) := by
  have hflat : (parse_args line).flatten = line.filter (fun c => decide (c ≠ ' ')) := by
    rw [parse_args_flatten]
    congr 1
    funext c
    simp
  refine ⟨parse_args_eq_split line, fun t ht => (parse_args_nonempty_nospace line t ht).2, ?_, hflat⟩
  intro c hc hne
  have : c ∈ (parse_args line).flatten := by
    rw [hflat]
    exact List.mem_filter.2 ⟨hc, by simpa using hne⟩
  rcases List.mem_flatten.1 this with ⟨t, ht, hct⟩
  exact ⟨t, ht, hct⟩

set_option maxRecDepth 100000 in
/-- C9: whatever `fgets` stores in the 100-byte buffer, the line left after the
newline removal has at most 99 characters and yields at most 50 tokens, so the
writes `args[i]` and the closing `args[i] = NULL` stay inside the
`MAX_COMMAND_LENGTH / 2 + 1 = 51` slots; 50 tokens are reached by a line of 99
characters. -/
theorem C9_args_within_bounds :
    (∀ stdin command rest, fgets MAX_COMMAND_LENGTH stdin = some (command, rest) →
      (strip_newline command).length ≤ 99 ∧
      (parse_args (strip_newline command)).length ≤ 50 ∧
      (parse_args (strip_newline command)).length < MAX_COMMAND_LENGTH / 2 + 1) ∧
    (∃ stdin command rest, fgets MAX_COMMAND_LENGTH stdin = some (command, rest) ∧
      (strip_newline command).length = 99 ∧
      (parse_args (strip_newline command)).length = 50) := by
  constructor
  · intro stdin command rest h
    have h99 : (strip_newline command).length ≤ 99 := by
      unfold fgets at h
      split at h
      · cases h
      · have hc : command = (fgets_read (MAX_COMMAND_LENGTH - 1) stdin).1 := by
          injection h with h
          rw [h]
        have h1 := fgets_read_length (MAX_COMMAND_LENGTH - 1) stdin
        have h2 := strip_newline_length command
        rw [← hc] at h1
        simp only [MAX_COMMAND_LENGTH] at h1
        omega
    have hk := parse_args_length (strip_newline command)
    simp only [MAX_COMMAND_LENGTH]
    omega
  · exact ⟨(List.replicate 49 ['a', ' ']).flatten ++ ['a'],
      (List.replicate 49 ['a', ' ']).flatten ++ ['a'], [], by decide, by decide, by decide⟩

/-- C9 at the input `ls -l` followed by a newline. -/
theorem C9_args_within_bounds_witness :
    fgets MAX_COMMAND_LENGTH "ls -l\n".toList = some ("ls -l\n".toList, []) ∧
    (strip_newline "ls -l\n".toList).length ≤ 99 ∧
    (parse_args (strip_newline "ls -l\n".toList)).length ≤ 50 ∧
    (parse_args (strip_newline "ls -l\n".toList)).length < MAX_COMMAND_LENGTH / 2 + 1 :=
  ⟨by decide, C9_args_within_bounds.1 "ls -l\n".toList "ls -l\n".toList [] (by decide)⟩

/-! ## Claims on the history -/

theorem holds_init (stdin : List Char) : Holds (Shell.init stdin) [] := by
  simp [Holds, Shell.init]

theorem holds_add (st : Shell) (held : List CString) (c : CString) (h : Holds st held) :
    Holds (add_to_history st c) ((held ++ [c]).take MAX_COMMANDS) := by
  obtain ⟨h1, h2, h3⟩ := h
  unfold add_to_history
  by_cases hlt : held.length < MAX_COMMANDS
  · have htake : (held ++ [c]).take MAX_COMMANDS = held ++ [c] := by
      apply List.take_of_length_le
      simp
      omega
    rw [if_pos (by omega), htake]
    refine ⟨?_, by simp [h2], by simp; omega⟩
    obtain ⟨k, hk⟩ : ∃ k, MAX_COMMANDS - held.length = k + 1 := ⟨MAX_COMMANDS - held.length - 1, by omega⟩
    have hk2 : MAX_COMMANDS - (held ++ [c]).length = k := by simp; omega
    simp only [h1, h2, hk, hk2, List.replicate_succ]
    rw [List.set_append_right _ _ (by simp)]
    simp
  · have hle : held.length = MAX_COMMANDS := by omega
    have htake : (held ++ [c]).take MAX_COMMANDS = held := by
      rw [← hle]
      simp
    rw [if_neg (by omega), htake]
    exact ⟨h1, h2, h3⟩

theorem holds_foldl (lines : List CString) (st : Shell) (held : List CString) (h : Holds st held) :
    Holds (lines.foldl add_to_history st) ((held ++ lines).take MAX_COMMANDS) := by
  induction lines generalizing st held with
  | nil =>
    simp only [List.foldl_nil, List.append_nil]
    rw [List.take_of_length_le h.2.2]
    exact h
  | cons c cs ih =>
    have h3 := h.2.2
    have := ih (add_to_history st c) _ (holds_add st held c h)
    simp only [List.foldl_cons]
    convert this using 1
    by_cases hlt : held.length < MAX_COMMANDS
    · rw [List.take_of_length_le (l := held ++ [c]) (by simp; omega)]
      simp
    · have hle : held.length = MAX_COMMANDS := by omega
      have e1 : (held ++ [c]).take MAX_COMMANDS = held := by rw [← hle]; simp
      rw [e1, ← hle]
      simp

theorem add_to_history_trace (st : Shell) (c : CString) :
    (add_to_history st c).trace = st.trace ∧ (add_to_history st c).stdin = st.stdin := by
  unfold add_to_history
  split <;> simp

theorem foldl_add_to_history_trace (lines : List CString) (st : Shell) :
    (lines.foldl add_to_history st).trace = st.trace := by
  induction lines generalizing st with
  | nil => rfl
  | cons c cs ih => rw [List.foldl_cons, ih, (add_to_history_trace st c).1]

theorem add_to_history_full (st : Shell) (c : CString) (h : ¬ st.history_count < MAX_COMMANDS) :
    add_to_history st c = st := by
  unfold add_to_history
  rw [if_neg h]

theorem print_history_of_holds (st : Shell) (held : List CString) (h : Holds st held) :
    (print_history st).trace = st.trace ++ render_history held := by
  obtain ⟨h1, h2, _⟩ := h
  unfold print_history render_history
  simp only
  congr 1
  apply List.ext_getElem
  · simp [h2]
  · intro i hi1 hi2
    simp only [List.length_map, List.length_range, List.enum_length] at hi1 hi2
    have hget : st.history[i]?.getD none = some held[i] := by
      rw [h1, List.getElem?_append_left (by simpa using hi2)]
      simp [hi2]
    simp [history_line, hget, printf_s]

/-- C1: the lines recorded one after another into the empty history are listed
by `print_history` as the first `min n 100` of them, in submission order, entry
`k` (from 1) as `<k> <line>`; and once 100 lines are held a further
`add_to_history` changes neither the state nor the listing. -/
theorem C1_history_lists_first_100 (stdin : List Char) (lines : List CString) :
    (print_history (lines.foldl add_to_history (Shell.init stdin))).trace =
      render_history (lines.take (min lines.length 100)) ∧
    (∀ extra : CString, 100 ≤ lines.length →
      add_to_history (lines.foldl add_to_history (Shell.init stdin)) extra =
        lines.foldl add_to_history (Shell.init stdin) ∧
      (print_history (add_to_history (lines.foldl add_to_history (Shell.init stdin)) extra)).trace =
        (print_history (lines.foldl add_to_history (Shell.init stdin))).trace) := by
  have hold := holds_foldl lines (Shell.init stdin) [] (holds_init stdin)
  simp only [List.nil_append] at hold
  have hmin : lines.take (min lines.length 100) = lines.take MAX_COMMANDS := by
    simp only [MAX_COMMANDS]
    by_cases h : lines.length ≤ 100
    · rw [Nat.min_eq_left h, List.take_of_length_le h, List.take_of_length_le (Nat.le_refl _)]
    · rw [Nat.min_eq_right (by omega)]
  constructor
  · rw [print_history_of_holds _ _ hold, hmin, foldl_add_to_history_trace]
    simp [Shell.init]
  · intro extra hlen
    have hfull : ¬ (lines.foldl add_to_history (Shell.init stdin)).history_count < MAX_COMMANDS := by
      rw [hold.2.1, List.length_take]
      simp only [MAX_COMMANDS]
      omega
    have hno : add_to_history (lines.foldl add_to_history (Shell.init stdin)) extra =
        lines.foldl add_to_history (Shell.init stdin) :=
      add_to_history_full _ _ hfull
    exact ⟨hno, by rw [hno]⟩

set_option maxRecDepth 100000 in
/-- C1 at 100 recorded lines `ls` followed by the line `pwd`. -/
theorem C1_history_lists_first_100_witness :
    100 ≤ (List.replicate 100 "ls".toList).length ∧
    add_to_history ((List.replicate 100 "ls".toList).foldl add_to_history (Shell.init []))
        "pwd".toList =
      (List.replicate 100 "ls".toList).foldl add_to_history (Shell.init []) ∧
    (print_history (add_to_history
        ((List.replicate 100 "ls".toList).foldl add_to_history (Shell.init [])) "pwd".toList)).trace =
      (print_history ((List.replicate 100 "ls".toList).foldl add_to_history (Shell.init []))).trace :=
  ⟨by simp, (C1_history_lists_first_100 [] (List.replicate 100 "ls".toList)).2 "pwd".toList (by simp)⟩

/-! ## Claims on external commands -/

theorem exec_loop_all_fail (sys : Sys) (args : List CString) (i : Nat) (ds : List CString)
    (st : Shell)
    (h : ∀ j d, ds[j]? = some d → sys.execv (i + j) (snprintf_path 1024 d (args.headD [])) = false) :
    exec_loop sys args i ds st =
      .returned { st with trace := st.trace ++ ds.map (execv_event args) } := by
  induction ds generalizing i st with
  | nil => simp [exec_loop]
  | cons d ds ih =>
    have h0 := h 0 d (by simp)
    simp only [Nat.add_zero] at h0
    simp only [exec_loop, h0]
    rw [ih (i + 1) _ (fun j e he => by
      have := h (j + 1) e (by simpa using he)
      rwa [← Nat.add_assoc, Nat.add_right_comm] at this)]
    simp [Shell.emit, execv_event]

theorem exec_loop_first_success (sys : Sys) (args : List CString) (i k : Nat) (ds : List CString)
    (dk : CString) (st : Shell) (hk : ds[k]? = some dk)
    (hok : sys.execv (i + k) (snprintf_path 1024 dk (args.headD [])) = true)
    (h : ∀ j d, j < k → ds[j]? = some d →
      sys.execv (i + j) (snprintf_path 1024 d (args.headD [])) = false) :
    exec_loop sys args i ds st =
      .replaced { st with trace := st.trace ++ (ds.take (k + 1)).map (execv_event args) } := by
  induction ds generalizing i k st with
  | nil => simp at hk
  | cons d ds ih =>
    cases k with
    | zero =>
      simp only [List.getElem?_cons_zero, Option.some.injEq] at hk
      subst hk
      simp only [Nat.add_zero] at hok
      simp only [exec_loop, hok]
      simp [Shell.emit, execv_event]
    | succ k =>
      have h0 := h 0 d (Nat.succ_pos k) (by simp)
      simp only [Nat.add_zero] at h0
      simp only [exec_loop, h0]
      rw [ih (i + 1) k _ (by simpa using hk)
        (by rwa [Nat.add_assoc, Nat.add_comm 1 k])
        (fun j e hj he => by
          have := h (j + 1) e (by omega) (by simpa using he)
          rwa [← Nat.add_assoc, Nat.add_right_comm] at this)]
      simp [Shell.emit, execv_event]

/-- C2: in the child (`fork` answered 0) the `execv` attempts are made in list
order and stop at the first success.  If directory `k` is the first whose
candidate can be executed, exactly the candidates of directories `0..k` are
attempted, the image is replaced by candidate `k`, and `execvp` is not called.
If no candidate can be executed, every directory is attempted in order and only
then `execvp` is called on the bare name.  In particular a command executable
from the first directory runs from there after that single attempt. -/
theorem C2_first_success_runs (sys : Sys) (st : Shell) (args paths : List CString)
    (hchild : sys.fork = 0) :
    (∀ k dk, paths[k]? = some dk →
      sys.execv k (snprintf_path 1024 dk (args.headD [])) = true →
      (∀ j d, j < k → paths[j]? = some d →
        sys.execv j (snprintf_path 1024 d (args.headD [])) = false) →
      execute_command sys st args paths =
        .replaced { st with
          trace := st.trace ++ [Event.fork] ++ (paths.take (k + 1)).map (execv_event args) }) ∧
    ((∀ j d, paths[j]? = some d →
        sys.execv j (snprintf_path 1024 d (args.headD [])) = false) →
      execute_command sys st args paths =
        if sys.execvp then
          .replaced { st with
            trace := st.trace ++ [Event.fork] ++ paths.map (execv_event args) ++
              [Event.execvp (args.headD []) args] }
        else
          .exited 1 { st with
            trace := st.trace ++ [Event.fork] ++ paths.map (execv_event args) ++
              [Event.execvp (args.headD []) args, Event.err "exec failed".toList] }) ∧
    (∀ d ds, paths = d :: ds →
      sys.execv 0 (snprintf_path 1024 d (args.headD [])) = true →
      execute_command sys st args paths =
        .replaced { st with trace := st.trace ++ [Event.fork, execv_event args d] }) := by
  have hfirst : ∀ k dk, paths[k]? = some dk →
      sys.execv k (snprintf_path 1024 dk (args.headD [])) = true →
      (∀ j d, j < k → paths[j]? = some d →
        sys.execv j (snprintf_path 1024 d (args.headD [])) = false) →
      execute_command sys st args paths =
        .replaced { st with
          trace := st.trace ++ [Event.fork] ++ (paths.take (k + 1)).map (execv_event args) } := by
    intro k dk hk hok hbefore
    unfold execute_command execute_child
    simp only [hchild, if_true]
    rw [exec_loop_first_success sys args 0 k paths dk _ hk (by simpa using hok)
      (fun j d hj hd => by simpa using hbefore j d hj hd)]
    simp [Shell.emit]
  refine ⟨hfirst, ?_, ?_⟩
  · intro hall
    unfold execute_command execute_child
    simp only [hchild, if_true]
    rw [exec_loop_all_fail sys args 0 paths _ (fun j d hd => by simpa using hall j d hd)]
    cases sys.execvp <;> simp [Shell.emit]
  · intro d ds hp hok
    have := hfirst 0 d (by simp [hp]) hok (fun j _ hj => absurd hj (Nat.not_lt_zero j))
    rw [this, hp]
    simp

/-- C2 at two directories of which only the second holds the program. -/
theorem C2_first_success_runs_witness :
    sys_child_second.fork = 0 ∧
    execute_command sys_child_second (Shell.init []) ["ls".toList, "-l".toList]
        ["/opt/bin".toList, "/bin".toList, "/usr/bin".toList] =
      .replaced { Shell.init [] with
        trace := [Event.fork,
          Event.execv "/opt/bin/ls".toList ["ls".toList, "-l".toList],
          Event.execv "/bin/ls".toList ["ls".toList, "-l".toList]] } :=
  ⟨rfl, by
    have h := (C2_first_success_runs sys_child_second (Shell.init []) ["ls".toList, "-l".toList]
      ["/opt/bin".toList, "/bin".toList, "/usr/bin".toList] rfl).1 1 "/bin".toList rfl rfl
      (by
        intro j d hj hd
        have : j = 0 := by omega
        subst this
        rfl)
    rw [h]
    decide⟩

/-! ## Traces only grow -/

theorem exec_loop_trace_grows (sys : Sys) (args : List CString) (i : Nat) (ds : List CString)
    (st : Shell) : st.trace <+: (exec_loop sys args i ds st).state.trace := by
  induction ds generalizing i st with
  | nil => simp [exec_loop, Result.state]
  | cons d ds ih =>
    simp only [exec_loop]
    split
    · simp [Result.state, Shell.emit]
    · exact (List.prefix_append _ _).trans (ih (i + 1) (st.emit _))

theorem execute_child_trace_grows (sys : Sys) (st : Shell) (args paths : List CString) :
    (exec_loop sys args 0 paths st).state.trace <+: (execute_child sys st args paths).state.trace := by
  unfold execute_child
  cases exec_loop sys args 0 paths st with
  | returned s =>
    by_cases h : sys.execvp = true <;> simp [h, Result.state, Shell.emit]
  | exited n s => simp [Result.state]
  | replaced s => simp [Result.state]

theorem execute_command_trace_grows (sys : Sys) (st : Shell) (args paths : List CString) :
    st.trace <+: (execute_command sys st args paths).state.trace := by
  unfold execute_command
  simp only
  split
  · exact ((List.prefix_append _ _).trans (exec_loop_trace_grows sys args 0 paths (st.emit .fork))).trans
      (execute_child_trace_grows sys (st.emit .fork) args paths)
  · split
    · split <;> simp [Result.state, Shell.emit]
    · simp [Result.state, Shell.emit]

theorem change_directory_trace_grows (sys : Sys) (st : Shell) (path : Option CString) :
    st.trace <+: (change_directory sys st path).trace := by
  unfold change_directory
  cases path with
  | none => simp [Shell.emit]
  | some p =>
    simp only
    split <;> simp [Shell.emit]

theorem print_working_directory_trace_grows (sys : Sys) (st : Shell) :
    st.trace <+: (print_working_directory sys st).trace := by
  unfold print_working_directory
  simp only
  split <;> simp [Shell.emit]

theorem dispatch_trace_grows (sys : Sys) (paths : List CString) (st : Shell)
    (args : List CString) : st.trace <+: (dispatch sys paths st args).state.trace := by
  unfold dispatch
  cases args with
  | nil => simp [Result.state]
  | cons arg0 rest =>
    simp only
    split
    · simp [Result.state, print_history]
    · split
      · exact change_directory_trace_grows sys st _
      · split
        · exact print_working_directory_trace_grows sys st
        · split
          · simp [Result.state]
          · exact execute_command_trace_grows sys st _ paths

theorem loop_body_trace_grows (sys : Sys) (paths : List CString) (st : Shell) :
    st.trace ++ [Event.out "$ ".toList] <+: (loop_body sys paths st).state.trace := by
  unfold loop_body
  simp only
  cases fgets MAX_COMMAND_LENGTH (st.emit (Event.out "$ ".toList)).stdin with
  | none => simp [Result.state, Shell.emit]
  | some p =>
    obtain ⟨command, rest⟩ := p
    simp only [process_line]
    refine List.IsPrefix.trans ?_ (dispatch_trace_grows sys paths _ _)
    rw [(add_to_history_trace _ _).1]
    simp [Shell.emit]

theorem main_loop_trace_grows (paths : List CString) (world : List Sys) (st : Shell) :
    st.trace <+: (main_loop paths world st).state.trace := by
  induction world generalizing st with
  | nil => simp [main_loop, Result.state]
  | cons sys world ih =>
    have h := loop_body_trace_grows sys paths st
    simp only [main_loop]
    cases hb : loop_body sys paths st with
    | returned s =>
      rw [hb] at h
      exact ((List.prefix_append _ _).trans h).trans (ih s)
    | exited n s =>
      rw [hb] at h
      exact (List.prefix_append _ _).trans h
    | replaced s =>
      rw [hb] at h
      exact (List.prefix_append _ _).trans h

/-- An iteration that is started first prints the prompt. -/
theorem main_loop_prompt (paths : List CString) (sys : Sys) (world : List Sys) (st : Shell) :
    st.trace ++ [Event.out "$ ".toList] <+: (main_loop paths (sys :: world) st).state.trace := by
  have h := loop_body_trace_grows sys paths st
  simp only [main_loop]
  cases hb : loop_body sys paths st with
  | returned s =>
    rw [hb] at h
    exact h.trans (main_loop_trace_grows paths world s)
  | exited n s =>
    rw [hb] at h
    exact h
  | replaced s =>
    rw [hb] at h
    exact h

/-! ## Dispatch -/

theorem strcmp_eq_zero_iff (a b : CString) : strcmp a b = 0 ↔ a = b := by
  induction a generalizing b with
  | nil => cases b <;> simp [strcmp]
  | cons x xs ih =>
    cases b with
    | nil => simp [strcmp]
    | cons y ys =>
      simp only [strcmp]
      by_cases hxy : x = y
      · simp [hxy, ih]
      · rw [if_neg hxy]
        constructor
        · intro h
          split at h <;> simp at h
        · intro h
          injection h with h1 _
          exact absurd h1 hxy

theorem dispatch_external (sys : Sys) (paths : List CString) (st : Shell) (arg0 : CString)
    (rest : List CString) (h : arg0 ∉ builtins) :
    dispatch sys paths st (arg0 :: rest) = execute_command sys st (arg0 :: rest) paths := by
  simp only [builtins, List.mem_cons, List.mem_singleton, not_or, List.not_mem_nil, or_false] at h
  obtain ⟨h1, h2, h3, h4⟩ := h
  simp only [dispatch, strcmp_eq_zero_iff, if_neg h1, if_neg h2, if_neg h3, if_neg h4]

theorem loop_body_eq (sys : Sys) (paths : List CString) (st : Shell) (command : CString)
    (rest : List Char) (h : fgets MAX_COMMAND_LENGTH st.stdin = some (command, rest)) :
    loop_body sys paths st =
      dispatch sys paths (recorded st rest (strip_newline command))
        (parse_args (strip_newline command)) := by
  unfold loop_body
  simp only [Shell.emit, h, process_line, recorded]

/-! ## Claims on the main loop -/

set_option maxRecDepth 100000 in
/-- C5 (as stated, refuted): with `fork` failing on the line `ls`, the shell
exits with status 1 after the report `fork failed`; the line `pwd` that follows
is never read and no second prompt is printed. -/
theorem C5_fork_failure_exits :
    main ["myshell".toList] "ls\npwd\n".toList [sys_fork_fails, sys_parent] =
      .exited 1 { add_to_history (Shell.init "pwd\n".toList) "ls".toList with
        trace := [Event.out "$ ".toList, Event.fork, Event.err "fork failed".toList] } := by
  decide

/-- C5 (amended): when `fork` returns a negative value, `execute_command` reports
`fork failed` and the process exits with status 1; for a line whose first token
is not a built-in the main loop therefore ends there, whatever input and
iterations would follow. -/
theorem C5_fork_failure_is_fatal (sys : Sys) (st : Shell) (args paths : List CString)
    (hfork : sys.fork < 0) :
    execute_command sys st args paths =
      .exited 1 { st with trace := st.trace ++ [Event.fork, Event.err "fork failed".toList] } ∧
    (∀ (command : CString) (rest : List Char) (arg0 : CString) (more : List CString)
      (world : List Sys),
      fgets MAX_COMMAND_LENGTH st.stdin = some (command, rest) →
      parse_args (strip_newline command) = arg0 :: more →
      arg0 ∉ builtins →
      main_loop paths (sys :: world) st =
        .exited 1 { recorded st rest (strip_newline command) with
          trace := (recorded st rest (strip_newline command)).trace ++
            [Event.fork, Event.err "fork failed".toList] }) := by
  have hexec : ∀ (st : Shell) (args : List CString), execute_command sys st args paths =
      .exited 1 { st with trace := st.trace ++ [Event.fork, Event.err "fork failed".toList] } := by
    intro st args
    unfold execute_command
    simp only
    rw [if_neg (by omega), if_neg (by omega)]
    simp [Shell.emit]
  refine ⟨hexec st args, ?_⟩
  intro command rest arg0 more world hread hargs hext
  simp only [main_loop]
  rw [loop_body_eq sys paths st command rest hread, hargs, dispatch_external _ _ _ _ _ hext, hexec]

/-- C5 (amended) at the line `ls` with a failing `fork`. -/
theorem C5_fork_failure_is_fatal_witness :
    sys_fork_fails.fork < 0 ∧
    execute_command sys_fork_fails (Shell.init []) ["ls".toList] ["/bin".toList] =
      .exited 1 { Shell.init [] with
        trace := (Shell.init []).trace ++ [Event.fork, Event.err "fork failed".toList] } :=
  ⟨by decide,
    (C5_fork_failure_is_fatal sys_fork_fails (Shell.init []) ["ls".toList] ["/bin".toList]
      (by decide)).1⟩

/-- C6: for a line whose first token is not a built-in, when every `execv` on a
search-path candidate and the `execvp` fail, the child reports `exec failed` and
exits with status 1, no further loop iteration being run in it; the parent,
when `waitpid` does not answer -1, goes on with the main loop, and the next
iteration prints the prompt. -/
theorem C6_command_not_found (sysc sysp : Sys) (paths : List CString) (st : Shell)
    (command : CString) (rest : List Char) (arg0 : CString) (more : List CString)
    (hread : fgets MAX_COMMAND_LENGTH st.stdin = some (command, rest))
    (hargs : parse_args (strip_newline command) = arg0 :: more)
    (hext : arg0 ∉ builtins)
    (hchild : sysc.fork = 0)
    (hexecv : ∀ j d, paths[j]? = some d → sysc.execv j (snprintf_path 1024 d arg0) = false)
    (hexecvp : sysc.execvp = false)
    (hparent : 0 < sysp.fork)
    (hwait : sysp.waitpid ≠ -1) :
    (∀ world, main_loop paths (sysc :: world) st =
      .exited 1 { recorded st rest (strip_newline command) with
        trace := (recorded st rest (strip_newline command)).trace ++ [Event.fork] ++
          paths.map (execv_event (arg0 :: more)) ++
          [Event.execvp arg0 (arg0 :: more), Event.err "exec failed".toList] }) ∧
    (∀ world, main_loop paths (sysp :: world) st =
      main_loop paths world
        (((recorded st rest (strip_newline command)).emit .fork).emit (.waitpid sysp.fork))) ∧
    (∀ sys world,
      (recorded st rest (strip_newline command)).trace ++
          [Event.fork, Event.waitpid sysp.fork, Event.out "$ ".toList] <+:
        (main_loop paths (sysp :: sys :: world) st).state.trace) := by
  have hp : ∀ world, main_loop paths (sysp :: world) st =
      main_loop paths world
        (((recorded st rest (strip_newline command)).emit .fork).emit (.waitpid sysp.fork)) := by
    intro world
    have hb : loop_body sysp paths st = .returned
        (((recorded st rest (strip_newline command)).emit .fork).emit (.waitpid sysp.fork)) := by
      rw [loop_body_eq sysp paths st command rest hread, hargs, dispatch_external _ _ _ _ _ hext]
      unfold execute_command
      simp only
      rw [if_neg (by omega), if_pos (by omega), if_neg hwait]
    simp only [main_loop, hb]
  refine ⟨?_, hp, ?_⟩
  · intro world
    have hb : loop_body sysc paths st =
        .exited 1 { recorded st rest (strip_newline command) with
          trace := (recorded st rest (strip_newline command)).trace ++ [Event.fork] ++
            paths.map (execv_event (arg0 :: more)) ++
            [Event.execvp arg0 (arg0 :: more), Event.err "exec failed".toList] } := by
      rw [loop_body_eq sysc paths st command rest hread, hargs, dispatch_external _ _ _ _ _ hext]
      unfold execute_command execute_child
      simp only [hchild, if_true]
      rw [exec_loop_all_fail sysc (arg0 :: more) 0 paths _
        (fun j d hd => by simpa using hexecv j d hd)]
      simp [hexecvp, Shell.emit]
    simp only [main_loop, hb]
  · intro sys world
    rw [hp]
    have := main_loop_prompt paths sys world
      (((recorded st rest (strip_newline command)).emit .fork).emit (.waitpid sysp.fork))
    simpa [Shell.emit] using this

set_option maxRecDepth 100000 in
/-- C6 at the line `foo -x` with the search path `/bin`, `/usr/bin`. -/
theorem C6_command_not_found_witness :
    (∀ world, main_loop ["/bin".toList, "/usr/bin".toList] (sys_child_no_exec :: world)
        (Shell.init "foo -x\npwd\n".toList) =
      .exited 1 { recorded (Shell.init "foo -x\npwd\n".toList) "pwd\n".toList
          (strip_newline "foo -x\n".toList) with
        trace := (recorded (Shell.init "foo -x\npwd\n".toList) "pwd\n".toList
            (strip_newline "foo -x\n".toList)).trace ++ [Event.fork] ++
          ["/bin".toList, "/usr/bin".toList].map (execv_event ["foo".toList, "-x".toList]) ++
          [Event.execvp "foo".toList ["foo".toList, "-x".toList],
            Event.err "exec failed".toList] }) ∧
    (∀ world, main_loop ["/bin".toList, "/usr/bin".toList] (sys_parent :: world)
        (Shell.init "foo -x\npwd\n".toList) =
      main_loop ["/bin".toList, "/usr/bin".toList] world
        (((recorded (Shell.init "foo -x\npwd\n".toList) "pwd\n".toList
          (strip_newline "foo -x\n".toList)).emit .fork).emit (.waitpid sys_parent.fork))) ∧
    (∀ sys world,
      (recorded (Shell.init "foo -x\npwd\n".toList) "pwd\n".toList
          (strip_newline "foo -x\n".toList)).trace ++
          [Event.fork, Event.waitpid sys_parent.fork, Event.out "$ ".toList] <+:
        (main_loop ["/bin".toList, "/usr/bin".toList] (sys_parent :: sys :: world)
          (Shell.init "foo -x\npwd\n".toList)).state.trace) :=
  C6_command_not_found sys_child_no_exec sys_parent ["/bin".toList, "/usr/bin".toList]
    (Shell.init "foo -x\npwd\n".toList) "foo -x\n".toList "pwd\n".toList "foo".toList
    ["-x".toList] (by decide) (by decide) (by decide) rfl (fun _ _ _ => rfl) rfl (by decide)
    (by decide)

/-- C7: for every non-empty token sequence the route is fixed by token 0 alone,
compared exactly with `history`, `cd`, `pwd` and `exit`: an equal token 0 runs
that built-in whatever tokens follow (`cd` reading token 1, `exit` ending the
process with status 0), and any other token 0, `Exit` for one, goes to
`execute_command`. -/
theorem C7_dispatch_on_token_zero (sys : Sys) (paths : List CString) (st : Shell)
    (rest : List CString) :
    dispatch sys paths st ("history".toList :: rest) = .returned (print_history st) ∧
    dispatch sys paths st ("cd".toList :: rest) = .returned (change_directory sys st rest.head?) ∧
    dispatch sys paths st ("pwd".toList :: rest) = .returned (print_working_directory sys st) ∧
    dispatch sys paths st ("exit".toList :: rest) = .exited 0 st ∧
    (∀ arg0 : CString, arg0 ∉ builtins →
      dispatch sys paths st (arg0 :: rest) = execute_command sys st (arg0 :: rest) paths) ∧
    dispatch sys paths st ("Exit".toList :: rest) =
      execute_command sys st ("Exit".toList :: rest) paths := by
  refine ⟨?_, ?_, ?_, ?_, fun arg0 h => dispatch_external sys paths st arg0 rest h,
    dispatch_external sys paths st _ rest (by decide)⟩
  · simp only [dispatch, strcmp_eq_zero_iff, if_true]
  · rw [dispatch, if_neg (by rw [strcmp_eq_zero_iff]; decide),
      if_pos (by rw [strcmp_eq_zero_iff])]
  · rw [dispatch, if_neg (by rw [strcmp_eq_zero_iff]; decide),
      if_neg (by rw [strcmp_eq_zero_iff]; decide), if_pos (by rw [strcmp_eq_zero_iff])]
  · rw [dispatch, if_neg (by rw [strcmp_eq_zero_iff]; decide),
      if_neg (by rw [strcmp_eq_zero_iff]; decide), if_neg (by rw [strcmp_eq_zero_iff]; decide),
      if_pos (by rw [strcmp_eq_zero_iff])]

/-- C7 at the tokens `EXIT now`. -/
theorem C7_dispatch_on_token_zero_witness :
    "EXIT".toList ∉ builtins ∧
    dispatch sys_parent [] (Shell.init []) ["EXIT".toList, "now".toList] =
      execute_command sys_parent (Shell.init []) ["EXIT".toList, "now".toList] [] :=
  ⟨by decide,
    (C7_dispatch_on_token_zero sys_parent [] (Shell.init []) ["now".toList]).2.2.2.2.1
      "EXIT".toList (by decide)⟩

theorem replicate_pair_length (n : Nat) :
    ((List.replicate n ['/', 'a']).flatten).length = 2 * n := by
  induction n with
  | zero => rfl
  | succ n ih =>
    rw [List.replicate_succ, List.flatten_cons, List.length_append, ih]
    simp only [List.length_cons, List.length_nil]
    omega

theorem long_dir_length : long_dir.length = 1024 :=
  replicate_pair_length 512

/-- C8 (code defect): for the directory `/a/a/../a` of 1024 characters and the
program `ls`, the child passes to `execv` the first 1023 characters of the
directory, `snprintf` having cut the string at the size of `command_path`, and
not the directory followed by `/ls`. -/
theorem C8_long_directory_truncated :
    execute_command sys_child_no_exec (Shell.init []) ["ls".toList] [long_dir] =
      .exited 1 { Shell.init [] with
        trace := [Event.fork, Event.execv (long_dir.take 1023) ["ls".toList],
          Event.execvp "ls".toList ["ls".toList], Event.err "exec failed".toList] } ∧
    long_dir.take 1023 ≠ long_dir ++ "/".toList ++ "ls".toList := by
  constructor
  · have h : snprintf_path 1024 long_dir "ls".toList = long_dir.take 1023 := by
      unfold snprintf_path
      exact List.take_append_of_le_length (by rw [long_dir_length]; decide)
    unfold execute_command execute_child
    simp only [exec_loop, List.headD_cons, h]
    simp [sys_child_no_exec, Shell.emit, Shell.init]
  · intro h
    have := congrArg List.length h
    simp [long_dir_length] at this

theorem split_on_space_spaces (s : CString) (h : ∀ c ∈ s, c = ' ') : split_on_space s = [] := by
  induction s with
  | nil => exact split_on_space_nil
  | cons a s ih =>
    have ha : a = ' ' := h a (List.mem_cons_self _ _)
    subst ha
    rw [split_on_space_cons_space]
    exact ih (fun c hc => h c (List.mem_cons_of_mem _ hc))

set_option maxRecDepth 100000 in
/-- C4 (as stated, refuted): the line made of one tab is blank, yet it is stored
as one token and handed to `execute_command`; and the empty line read when the
history already holds 100 lines is not recorded. -/
theorem C4_blank_line_counterexamples :
    (∀ c ∈ strip_newline "\t\n".toList, isspace c = true) ∧
    parse_args (strip_newline "\t\n".toList) = ["\t".toList] ∧
    process_line sys_parent [] (Shell.init []) "\t\n".toList =
      .returned { add_to_history (Shell.init []) "\t".toList with
        trace := [Event.fork, Event.waitpid 4242] } ∧
    process_line sys_parent [] full_history "\n".toList = .returned full_history := by
  decide

/-- C4 (amended): for every buffer whose line (the part before the newline) is
empty or made of space characters only, the token sequence is empty and the
iteration returns to the loop with the state that `add_to_history` gives for
the line (the line recorded when fewer than 100 are held), no event added to
the trace: no built-in and no `execute_command` runs. -/
theorem C4_blank_line_is_noop (sys : Sys) (paths : List CString) (st : Shell) (command : CString)
    (hblank : ∀ c ∈ strip_newline command, c = ' ') :
    parse_args (strip_newline command) = [] ∧
    process_line sys paths st command = .returned (add_to_history st (strip_newline command)) ∧
    (add_to_history st (strip_newline command)).trace = st.trace ∧
    (add_to_history st (strip_newline command)).stdin = st.stdin ∧
    (st.history_count < MAX_COMMANDS →
      (add_to_history st (strip_newline command)).history_count = st.history_count + 1 ∧
      (add_to_history st (strip_newline command)).history =
        st.history.set st.history_count (some (strip_newline command))) := by
  have hargs : parse_args (strip_newline command) = [] := by
    rw [parse_args_eq_split]
    exact split_on_space_spaces _ hblank
  refine ⟨hargs, ?_, (add_to_history_trace _ _).1, (add_to_history_trace _ _).2, ?_⟩
  · simp only [process_line, hargs, dispatch]
  · intro hlt
    simp [add_to_history, hlt]

/-- C4 (amended) at the line of two spaces. -/
theorem C4_blank_line_is_noop_witness :
    (∀ c ∈ strip_newline "  \n".toList, c = ' ') ∧
    parse_args (strip_newline "  \n".toList) = [] ∧
    process_line sys_parent ["/bin".toList] (Shell.init []) "  \n".toList =
      .returned (add_to_history (Shell.init []) (strip_newline "  \n".toList)) :=
  ⟨by decide,
    (C4_blank_line_is_noop sys_parent ["/bin".toList] (Shell.init []) "  \n".toList
      (by decide)).1,
    (C4_blank_line_is_noop sys_parent ["/bin".toList] (Shell.init []) "  \n".toList
      (by decide)).2.1⟩

end MyShell
